import Mathlib

/-!
Shallow embedding of the journalsql streaming Journal Export parser
(src/parser/src/lib.rs), of the entry reader loop
(src/journalsqld/src/journal.rs, read_journal_entries), and of the row
projection (src/journalsqld/src/row.rs, TryFrom of JournalEntry for
LogRecordRow).

Bytes are modelled as `List Nat` (each element a byte value 0..255).
Rust strings appear as their UTF-8 byte lists: the source builds its key
and value strings with from_utf8_unchecked, which preserves the bytes
verbatim, so the byte list is a faithful representation.

The nom combinators used by the source are specialised here to the exact
instances the source uses, with their nom 7 semantics:
 - bytes::streaming::take_till: split at the first byte satisfying the
   predicate; Incomplete(Size 1) when no such byte exists;
 - bytes::streaming::tag on a one-byte tag: Incomplete(Size 1) on empty
   input, Error(Tag) on a mismatch;
 - bytes::streaming::take_until("\n"): Incomplete(Unknown) when the
   newline is absent;
 - number::complete::le_u64: Error(Eof) when fewer than 8 bytes remain;
 - multi::length_data: Incomplete(Size (needed - available)) when the
   payload is short;
 - branch::alt: on Error run the next branch and keep the last error;
   Incomplete is returned immediately.
-/

/-- Field value (`JournalFieldValue` in src/parser/src/lib.rs): UTF-8 text
or raw bytes. Text is kept as its byte list. -/
inductive JournalFieldValue where
  | UTF8 (s : List Nat)
  | Bytes (b : List Nat)
deriving DecidableEq

/-- A parsed field (`JournalField` in src/parser/src/lib.rs). -/
structure JournalField where
  key : List Nat
  value : JournalFieldValue
deriving DecidableEq

/-- The nom error kinds this parser can produce: `Tag` from the tag
combinators and `Eof` from `number::complete::le_u64`. -/
inductive ErrorKind where
  | Tag
  | Eof
deriving DecidableEq

/-- nom `Needed`: unknown demand or an exact byte count. -/
inductive NomNeeded where
  | unknown
  | size (n : Nat)
deriving DecidableEq

/-- The three-way result of a nom streaming parser (`IResult`): success
with the unconsumed suffix, Incomplete with a demand, or Error carrying
the kind and the input at the failing combinator. The source never uses
`cut`, so `nom::Err::Failure` is unreachable and not modelled. -/
inductive PResult (α : Type) where
  | ok (rem : List Nat) (val : α)
  | incomplete (n : NomNeeded)
  | error (kind : ErrorKind) (inp : List Nat)
deriving DecidableEq

/-- The stop predicate of the key scanner: `b == b'=' || b == b'\n'`
(src/parser/src/lib.rs line 87). -/
def isStop (b : Nat) : Bool := b == 61 || b == 10

/-- Model of `bytes::streaming::take_till(isStop)`: `none` models
Incomplete(Size 1) (no stop byte found); otherwise the taken prefix and
the rest beginning with the stop byte. -/
def takeTillStop : List Nat → Option (List Nat × List Nat)
  | [] => none
  | b :: rest =>
    if isStop b then some ([], b :: rest)
    else
      match takeTillStop rest with
      | none => none
      | some (tk, rem) => some (b :: tk, rem)

/-- Model of `bytes::streaming::take_until("\n")`: `none` models
Incomplete(Unknown); otherwise the bytes before the first newline and the
rest beginning with that newline. -/
def takeUntilNl : List Nat → Option (List Nat × List Nat)
  | [] => none
  | b :: rest =>
    if b == 10 then some ([], b :: rest)
    else
      match takeUntilNl rest with
      | none => none
      | some (tk, rem) => some (b :: tk, rem)

/-- Little-endian byte encoding of a natural, `k` bytes wide. -/
def leBytes : Nat → Nat → List Nat
  | 0, _ => []
  | k + 1, n => n % 256 :: leBytes k (n / 256)

/-- The 8-byte little-endian length prefix written by a Journal Export
producer (`LE64(len)` in the spec grammar). -/
def le64enc (n : Nat) : List Nat := leBytes 8 n

/-- Little-endian decoding, as `number::complete::le_u64` computes it
from the first 8 bytes. -/
def le64dec (l : List Nat) : Nat := l.foldr (fun b acc => b + 256 * acc) 0

/-- Source `parse_utf8_value` (src/parser/src/lib.rs lines 67-75):
`pair(tag(b"="), take_until("\n"))`, value = the bytes before the
newline. The newline itself is not consumed here. -/
def parse_utf8_value (input : List Nat) : PResult JournalFieldValue :=
  match input with
  | [] => .incomplete (.size 1)
  | b :: rest =>
    if b == 61 then
      match takeUntilNl rest with
      | none => .incomplete .unknown
      | some (line, rem) => .ok rem (.UTF8 line)
    else .error .Tag (b :: rest)

/-- Source `parse_bytes_value` (src/parser/src/lib.rs lines 77-84):
`pair(tag(b"\n"), length_data(le_u64))`. `le_u64` is the complete
variant: fewer than 8 bytes is Error(Eof), not Incomplete. -/
def parse_bytes_value (input : List Nat) : PResult JournalFieldValue :=
  match input with
  | [] => .incomplete (.size 1)
  | b :: rest =>
    if b == 10 then
      if rest.length < 8 then .error .Eof rest
      else
        let n := le64dec (rest.take 8)
        let after := rest.drop 8
        if after.length < n then .incomplete (.size (n - after.length))
        else .ok (after.drop n) (.Bytes (after.take n))
    else .error .Tag (b :: rest)

/-- Source `parse_journal_field` (src/parser/src/lib.rs lines 86-96):
`take_till` for the key, then `alt((parse_utf8_value, parse_bytes_value))`
followed by `tag(b"\n")`. `alt` keeps the last error; Incomplete results
pass through. -/
def parse_journal_field (input : List Nat) : PResult JournalField :=
  match takeTillStop input with
  | none => .incomplete (.size 1)
  | some (key, rest) =>
    let r :=
      match parse_utf8_value rest with
      | .error _ _ => parse_bytes_value rest
      | other => other
    match r with
    | .ok rem v =>
      match rem with
      | [] => .incomplete (.size 1)
      | c :: rem2 => if c == 10 then .ok rem2 ⟨key, v⟩ else .error .Tag (c :: rem2)
    | .incomplete n => .incomplete n
    | .error k i => .error k i

/-- A journal entry (`JournalEntry` in src/journalsqld/src/journal.rs):
its field map, modelled as an association list with unique keys. The
HashMap iteration order is not observable per the spec; last-inserted
wins on duplicate keys. -/
abbrev JournalEntry := List (List Nat × JournalFieldValue)

/-- Source `JournalEntry::put` (src/journalsqld/src/journal.rs lines 34-36):
HashMap insert, the new binding replacing any old one for the key. -/
def JournalEntry.put (e : JournalEntry) (k : List Nat) (v : JournalFieldValue) :
    JournalEntry :=
  e.filter (fun p => p.1 != k) ++ [(k, v)]

/-- HashMap lookup (`fields.get`). -/
def lookupE : JournalEntry → List Nat → Option JournalFieldValue
  | [], _ => none
  | (k, v) :: rest, key => if k = key then some v else lookupE rest key

/-- HashMap removal (`fields.remove`), dropping every binding of the key
(at most one exists in entries built by `put`). -/
def removeE (e : JournalEntry) (key : List Nat) : JournalEntry :=
  e.filter (fun p => p.1 != key)

/-- State of one `read_journal_entries` loop iteration
(src/journalsqld/src/journal.rs lines 118-180): the unread byte stream,
the `input` buffer, the entry under construction and the entries sent on
the channel so far. The channel is modelled as always open; the metrics
calls are fire-and-forget observers (spec section 1) and are omitted. -/
structure LoopState where
  stream : List Nat
  buffer : List Nat
  cur : JournalEntry
  out : List JournalEntry
deriving DecidableEq

/-- Result of one loop iteration: continue, return Ok (the `break` after
an empty read into an empty buffer), or return
`JournalReadError::ParseError`. -/
inductive StepRes where
  | cont (s : LoopState)
  | done (out : List JournalEntry)
  | fail (k : ErrorKind) (i : List Nat) (out : List JournalEntry)
deriving DecidableEq

/-- The buffer update on a successful parse
(src/journalsqld/src/journal.rs lines 135-137):
`input.truncate(remaining.len()); input.extend(&remaining)`. `truncate`
keeps the FIRST `remaining.len()` bytes, so the result is that prefix of
the old buffer followed by `remaining`. -/
def compactBuffer (input remaining : List Nat) : List Nat :=
  input.take remaining.length ++ remaining

/-- The tail of an iteration: `reader.take(to_read).read_to_end(&mut
input)` appends exactly `min to_read stream.length` bytes, then
`if input.is_empty() { break; }` returns Ok. -/
def readNext (s : LoopState) (demand : Nat) : StepRes :=
  let t := min demand s.stream.length
  let buf := s.buffer ++ s.stream.take t
  if buf = [] then .done s.out
  else .cont { s with buffer := buf, stream := s.stream.drop t }

/-- One iteration of the `read_journal_entries` loop: parse the buffer,
dispatch on the result (lines 131-166), then read. On Error(Eof) with the
buffer exactly a lone newline the current entry is sent and the state
reset; any other Error aborts with ParseError. -/
def readStep (s : LoopState) : StepRes :=
  match parse_journal_field s.buffer with
  | .ok remaining f =>
      readNext { s with buffer := compactBuffer s.buffer remaining,
                        cur := s.cur.put f.key f.value } 1
  | .incomplete .unknown => readNext s 1
  | .incomplete (.size n) => readNext s n
  | .error .Eof _ =>
      if s.buffer = [10] then
        readNext { s with buffer := [], cur := [], out := s.out ++ [s.cur] } 1
      else readNext s 1
  | .error k i => .fail k i s.out

/-- Outcome of running the loop with a fuel bound: the Rust loop has no
fuel, so `fuelOut` marks a run that was still going after `fuel`
iterations. -/
inductive RunRes where
  | ok (out : List JournalEntry)
  | parseError (k : ErrorKind) (i : List Nat) (out : List JournalEntry)
  | fuelOut (s : LoopState)
deriving DecidableEq

/-- The `read_journal_entries` loop, fuel-indexed. -/
def readLoop : Nat → LoopState → RunRes
  | 0, s => .fuelOut s
  | fuel + 1, s =>
    match readStep s with
    | .cont s2 => readLoop fuel s2
    | .done o => .ok o
    | .fail k i o => .parseError k i o

/-- Entry point `read_journal_entries` started on a fresh state: empty buffer, empty
current entry, nothing emitted. -/
def read_journal_entries (fuel : Nat) (stream : List Nat) : RunRes :=
  readLoop fuel { stream := stream, buffer := [], cur := [], out := [] }

/-- Iterating `readStep` through `n` continuing iterations; `none` when
the run stops (done or fail) before `n` steps. -/
def steps : Nat → LoopState → Option LoopState
  | 0, s => some s
  | n + 1, s =>
    match readStep s with
    | .cont s2 => steps n s2
    | _ => none

/-! ### Row projection (src/journalsqld/src/row.rs) -/

/-- Key bytes of `"_TRANSPORT"`. -/
def kTRANSPORT : List Nat := [95, 84, 82, 65, 78, 83, 80, 79, 82, 84]

/-- Key bytes of `"_MACHINE_ID"`. -/
def kMACHINE : List Nat := [95, 77, 65, 67, 72, 73, 78, 69, 95, 73, 68]

/-- Key bytes of `"_BOOT_ID"`. -/
def kBOOT : List Nat := [95, 66, 79, 79, 84, 95, 73, 68]

/-- Key bytes of `"_HOSTNAME"`. -/
def kHOST : List Nat := [95, 72, 79, 83, 84, 78, 65, 77, 69]

/-- Key bytes of `"__REALTIME_TIMESTAMP"`. -/
def kTS : List Nat :=
  [95, 95, 82, 69, 65, 76, 84, 73, 77, 69, 95, 84, 73, 77, 69, 83, 84, 65, 77, 80]

/-- Key bytes of `"__CURSOR"`. -/
def kCURSOR : List Nat := [95, 95, 67, 85, 82, 83, 79, 82]

/-- Key bytes of `"__SEQNUM"`. -/
def kSEQNUM : List Nat := [95, 95, 83, 69, 81, 78, 85, 77]

/-- Key bytes of `"__SEQNUM_ID"`. -/
def kSEQNUMID : List Nat := [95, 95, 83, 69, 81, 78, 85, 77, 95, 73, 68]

/-- Key bytes of `"__MONOTONIC_TIMESTAMP"`. -/
def kMONO : List Nat :=
  [95, 95, 77, 79, 78, 79, 84, 79, 78, 73, 67, 95, 84, 73, 77, 69, 83, 84, 65, 77, 80]

/-- Skip the parameter bytes of a CSI sequence up to and including its
final byte (0x40..0x7E). Helper for `stripAnsi`. -/
def dropParams : List Nat → List Nat
  | [] => []
  | b :: r => if 64 ≤ b ∧ b ≤ 126 then r else dropParams r

theorem dropParams_length_le (l : List Nat) : (dropParams l).length ≤ l.length := by
  induction l with
  | nil => simp [dropParams]
  | cons b r ih =>
    simp only [dropParams]
    split
    · simp
    · exact le_trans ih (by simp)

/-- Skip the body of one escape sequence after the ESC byte: a CSI
sequence when the next byte is a bracket, otherwise one byte. Helper for
`stripAnsi`. -/
def dropAnsiTail : List Nat → List Nat
  | [] => []
  | b :: r => if b = 91 then dropParams r else r

theorem dropAnsiTail_length_le (l : List Nat) : (dropAnsiTail l).length ≤ l.length := by
  match l with
  | [] => simp [dropAnsiTail]
  | b :: r =>
    simp only [dropAnsiTail]
    split
    · exact le_trans (dropParams_length_le r) (by simp)
    · simp

/-- Modelled from the spec: `strip_ansi_escapes::strip` is an external
crate the spec treats as an opaque pure byte-to-string helper whose
behaviour is to strip ANSI escape sequences from the bytes (spec sections
1 and 3). Bytes outside escape sequences pass through unchanged. -/
def stripAnsi : List Nat → List Nat
  | [] => []
  | b :: r =>
    if b = 27 then stripAnsi (dropAnsiTail r)
    else b :: stripAnsi r
termination_by l => l.length
decreasing_by
  all_goals simp only [List.length_cons]
  · exact Nat.lt_succ_of_le (dropAnsiTail_length_le _)
  · omega

/-- The UTF-8 bytes of the replacement character U+FFFD. -/
def replChar : List Nat := [239, 191, 189]

/-- True when the byte is a UTF-8 continuation byte. -/
def isCont (b : Nat) : Bool := 128 ≤ b && b ≤ 191

/-- Modelled from the spec: `String::from_utf8_lossy` is a standard
library helper the spec treats as an opaque pure byte-to-string helper
that decodes bytes as UTF-8 with replacement of invalid sequences (spec
section 3). Valid sequences pass through; an invalid byte becomes the
replacement character. -/
def utf8Lossy : List Nat → List Nat
  | [] => []
  | b :: r =>
    if b < 128 then b :: utf8Lossy r
    else if 194 ≤ b ∧ b ≤ 223 then
      match r with
      | b2 :: r2 =>
        if isCont b2 then b :: b2 :: utf8Lossy r2
        else replChar ++ utf8Lossy (b2 :: r2)
      | [] => replChar
    else if 224 ≤ b ∧ b ≤ 239 then
      match r with
      | b2 :: b3 :: r3 =>
        if isCont b2 && isCont b3 then b :: b2 :: b3 :: utf8Lossy r3
        else replChar ++ utf8Lossy (b2 :: b3 :: r3)
      | [_] => replChar ++ replChar
      | [] => replChar
    else if 240 ≤ b ∧ b ≤ 244 then
      match r with
      | b2 :: b3 :: b4 :: r4 =>
        if isCont b2 && isCont b3 && isCont b4 then b :: b2 :: b3 :: b4 :: utf8Lossy r4
        else replChar ++ utf8Lossy (b2 :: b3 :: b4 :: r4)
      | [_, _] => replChar ++ replChar ++ replChar
      | [_] => replChar ++ replChar
      | [] => replChar
    else replChar ++ utf8Lossy r
termination_by l => l.length
decreasing_by all_goals simp_arith [List.length_cons]

/-- `From<&JournalFieldValue> for String` (src/parser/src/lib.rs lines
26-44) in the default build (lossy mode, no bytes-as-base64 feature):
text passes through verbatim; binary is ANSI-stripped then decoded
lossily. -/
def valueToBytes : JournalFieldValue → List Nat
  | .UTF8 s => s
  | .Bytes b => utf8Lossy (stripAnsi b)

/-- Digit accumulator of Rust integer parsing: every byte must be an
ASCII digit. -/
def digitsToNat : List Nat → Nat → Option Nat
  | [], acc => some acc
  | b :: r, acc =>
    if 48 ≤ b ∧ b ≤ 57 then digitsToNat r (acc * 10 + (b - 48)) else none

/-- Model of Rust `str::parse::<i128>`: optional sign, one or more ASCII digits,
nothing else, result within the i128 range. -/
def parseI128 (s : List Nat) : Option Int :=
  let signed : Bool × List Nat :=
    match s with
    | 43 :: r => (false, r)
    | 45 :: r => (true, r)
    | l => (false, l)
  if signed.2 = [] then none
  else
    match digitsToNat signed.2 0 with
    | none => none
    | some n =>
      let v : Int := if signed.1 then -(n : Int) else (n : Int)
      if -(2 ^ 127) ≤ v ∧ v ≤ 2 ^ 127 - 1 then some v else none

/-- Days from 1970-01-01 to the given Gregorian calendar date (the
standard civil-from-days inverse), used to pin down the wall-clock
meaning of epoch timestamps. -/
def daysFromCivil (y m d : Int) : Int :=
  let y2 := if m ≤ 2 then y - 1 else y
  let era := Int.fdiv y2 400
  let yoe := y2 - era * 400
  let mp := if 2 < m then m - 3 else m + 9
  let doy := Int.fdiv (153 * mp + 2) 5 + d - 1
  let doe := yoe * 365 + Int.fdiv yoe 4 - Int.fdiv yoe 100 + doy
  era * 146097 + doe - 719468

/-- Smallest unix second `time::OffsetDateTime` represents:
-9999-01-01T00:00:00Z (`Date::MIN` of the time crate). -/
def odtMinSec : Int := daysFromCivil (-9999) 1 1 * 86400

/-- Largest unix second `time::OffsetDateTime` represents: the seconds
part of 9999-12-31T23:59:59.999999999Z (`Date::MAX`). -/
def odtMaxSec : Int := daysFromCivil 9999 12 31 * 86400 + 86399

/-- Validity check of `OffsetDateTime::from_unix_timestamp_nanos`: the
floor-divided seconds part must lie within the representable range. -/
def inOdtRange (nanos : Int) : Bool :=
  decide (odtMinSec ≤ Int.fdiv nanos 1000000000) &&
    decide (Int.fdiv nanos 1000000000 ≤ odtMaxSec)

/-- Outcome of `JournalEntry::parse_realtime_timerstamp`
(src/journalsqld/src/journal.rs lines 70-76): the value string parsed as
i128 microseconds, converted to nanoseconds; a ParseIntError; or the
panic of `.unwrap()` when `from_unix_timestamp_nanos` rejects the
out-of-range instant. -/
inductive TsResult where
  | ok (nanos : Int)
  | parseErr
  | panics
deriving DecidableEq

/-- Source `parse_realtime_timerstamp` (name kept as in the source):
`String::from(entry).parse::<i128>()?` then
`OffsetDateTime::from_unix_timestamp_nanos(micros * 1000).unwrap()`. -/
def parse_realtime_timerstamp (v : JournalFieldValue) : TsResult :=
  match parseI128 (valueToBytes v) with
  | none => .parseErr
  | some micros =>
    if inOdtRange (micros * 1000) then .ok (micros * 1000) else .panics

/-- Source `RowCreateError` (src/journalsqld/src/row.rs lines 32-39). The boxed
cause of `Unspecified` is not observable in the claims and is dropped. -/
inductive RowCreateError where
  | MissingField (field : List Nat)
  | Unspecified
deriving DecidableEq

/-- Source `LogRecordRow` (src/journalsqld/src/row.rs lines 49-61). The
timestamp carries the unix nanoseconds of the `OffsetDateTime`. -/
structure LogRecordRow where
  machine_id : List Nat
  boot_id : List Nat
  timestamp : Int
  hostname : List Nat
  transport : List Nat
  cursor : List Nat
  record : List (List Nat × List Nat)
deriving DecidableEq

/-- Outcome of the row projection: a row, a `RowCreateError`, or the
panic inside `parse_realtime_timerstamp`. -/
inductive RowResult where
  | ok (r : LogRecordRow)
  | err (e : RowCreateError)
  | panics
deriving DecidableEq

/-- Source `INSERT_IGNORED_FIELDS` (src/journalsqld/src/row.rs lines 11-28). -/
def insertIgnoredFields : List (List Nat) :=
  [kBOOT, kHOST, kMACHINE, kTRANSPORT, kCURSOR, kTS, kSEQNUM, kSEQNUMID, kMONO]

/-- Source `TryFrom<JournalEntry> for LogRecordRow` (src/journalsqld/src/row.rs
lines 63-126): destructively take the six distinguished fields in source
order, failing with MissingField on the first absent one; parse the
realtime timestamp; collect the remaining non-ignored fields. The trace
logging block (lines 99-105) only runs with trace logging enabled and is
modelled as disabled. -/
def tryFromEntry (e0 : JournalEntry) : RowResult :=
  match lookupE e0 kTRANSPORT with
  | none => .err (.MissingField kTRANSPORT)
  | some vTransport =>
    let e1 := removeE e0 kTRANSPORT
    match lookupE e1 kMACHINE with
    | none => .err (.MissingField kMACHINE)
    | some vMachine =>
      let e2 := removeE e1 kMACHINE
      match lookupE e2 kBOOT with
      | none => .err (.MissingField kBOOT)
      | some vBoot =>
        let e3 := removeE e2 kBOOT
        match lookupE e3 kHOST with
        | none => .err (.MissingField kHOST)
        | some vHost =>
          let e4 := removeE e3 kHOST
          match lookupE e4 kTS with
          | none => .err (.MissingField kTS)
          | some vTs =>
            let e5 := removeE e4 kTS
            match parse_realtime_timerstamp vTs with
            | .parseErr => .err .Unspecified
            | .panics => .panics
            | .ok nanos =>
              match lookupE e5 kCURSOR with
              | none => .err (.MissingField kCURSOR)
              | some vCursor =>
                let e6 := removeE e5 kCURSOR
                .ok { machine_id := valueToBytes vMachine
                      boot_id := valueToBytes vBoot
                      timestamp := nanos
                      hostname := valueToBytes vHost
                      transport := valueToBytes vTransport
                      cursor := valueToBytes vCursor
                      record :=
                        (e6.filter
                          (fun p => !(insertIgnoredFields.contains p.1))).map
                          (fun p => (p.1, valueToBytes p.2)) }

/-! ### Well-formed fields and entries of the Journal Export Format -/

/-- Abstract description of one well-formed field: a text field
`KEY=VALUE\n` or a binary field `KEY\n LE64(len) payload \n`. -/
inductive FieldSpec where
  | text (k v : List Nat)
  | binary (k b : List Nat)
deriving DecidableEq

/-- The key of a field description. -/
def FieldSpec.key : FieldSpec → List Nat
  | .text k _ => k
  | .binary k _ => k

/-- The parsed value a field description denotes. -/
def FieldSpec.val : FieldSpec → JournalFieldValue
  | .text _ v => .UTF8 v
  | .binary _ b => .Bytes b

/-- The wire encoding of one field per the export grammar (spec section
4.1). -/
def encField : FieldSpec → List Nat
  | .text k v => k ++ 61 :: (v ++ [10])
  | .binary k b => k ++ 10 :: (le64enc b.length ++ (b ++ [10]))

/-- A key free of the two structural bytes `=` and `\n`. -/
def cleanKey (k : List Nat) : Prop := ∀ b ∈ k, b ≠ 61 ∧ b ≠ 10

instance (k : List Nat) : Decidable (cleanKey k) := by
  unfold cleanKey; exact inferInstance

/-- Well-formedness of a field description: nonempty clean key, no
newline inside a text value, binary payload length expressible in the
8-byte length prefix. -/
def WFfield : FieldSpec → Prop
  | .text k v => k ≠ [] ∧ cleanKey k ∧ 10 ∉ v
  | .binary k b => k ≠ [] ∧ cleanKey k ∧ b.length < 2 ^ 64

instance (f : FieldSpec) : Decidable (WFfield f) := by
  cases f <;> unfold WFfield <;> exact inferInstance

/-- Concatenated encoding of an entry body (its fields, in order). -/
def encFields (fs : List FieldSpec) : List Nat := (fs.map encField).flatten

/-- Wire encoding of a whole entry: its fields then the lone newline
terminator (spec section 6). -/
def encEntry (fs : List FieldSpec) : List Nat := encFields fs ++ [10]

/-- The field mapping an entry denotes: the fields inserted in order into
an initial map, last-seen value winning. -/
def entryMap (cur : JournalEntry) (fs : List FieldSpec) : JournalEntry :=
  fs.foldl (fun e f => e.put f.key f.val) cur

/-! ### Behaviour of the field parser on the shapes the claims need -/

theorem takeTillStop_none {l : List Nat} (h : ∀ b ∈ l, isStop b = false) :
    takeTillStop l = none := by
  induction l with
  | nil => rfl
  | cons b r ih =>
    have hb := h b (by simp)
    have hr := ih (fun x hx => h x (by simp [hx]))
    simp [takeTillStop, hb, hr]

theorem takeTillStop_split {K : List Nat} (hK : ∀ b ∈ K, isStop b = false)
    {b : Nat} (hb : isStop b = true) (R : List Nat) :
    takeTillStop (K ++ b :: R) = some (K, b :: R) := by
  induction K with
  | nil => simp [takeTillStop, hb]
  | cons a tk ih =>
    have ha := hK a (by simp)
    have htk := ih (fun x hx => hK x (by simp [hx]))
    simp [takeTillStop, ha, htk]

theorem takeUntilNl_none {l : List Nat} (h : 10 ∉ l) : takeUntilNl l = none := by
  induction l with
  | nil => rfl
  | cons b r ih =>
    have hb : b ≠ 10 := fun e => h (by simp [e])
    have hr := ih (fun hx => h (by simp [hx]))
    simp [takeUntilNl, hb, hr]

theorem takeUntilNl_split {V : List Nat} (hV : 10 ∉ V) (R : List Nat) :
    takeUntilNl (V ++ 10 :: R) = some (V, 10 :: R) := by
  induction V with
  | nil => simp [takeUntilNl]
  | cons a tk ih =>
    have ha : a ≠ 10 := fun e => hV (by simp [e])
    have htk := ih (fun hx => hV (by simp [hx]))
    simp [takeUntilNl, ha, htk]

theorem leBytes_length (k n : Nat) : (leBytes k n).length = k := by
  induction k generalizing n with
  | zero => rfl
  | succ k ih => simp [leBytes, ih]

theorem le64enc_length (n : Nat) : (le64enc n).length = 8 := leBytes_length 8 n

theorem le64dec_leBytes (k n : Nat) : le64dec (leBytes k n) = n % 256 ^ k := by
  induction k generalizing n with
  | zero => simp [leBytes, le64dec, Nat.mod_one]
  | succ k ih =>
    have step : le64dec (leBytes (k + 1) n) =
        n % 256 + 256 * le64dec (leBytes k (n / 256)) := rfl
    rw [step, ih]
    conv_rhs => rw [pow_succ']
    rw [Nat.mod_mul]

theorem le64dec_enc {n : Nat} (h : n < 2 ^ 64) : le64dec (le64enc n) = n := by
  have h256 : (256 : Nat) ^ 8 = 2 ^ 64 := by norm_num
  rw [le64enc, le64dec_leBytes, h256, Nat.mod_eq_of_lt h]

theorem cleanKey_stopFree {k : List Nat} (h : cleanKey k) :
    ∀ b ∈ k, isStop b = false := by
  intro b hb
  obtain ⟨h1, h2⟩ := h b hb
  simp [isStop, h1, h2]

theorem cleanKey_take {k : List Nat} (h : cleanKey k) (j : Nat) :
    cleanKey (k.take j) := fun b hb => h b (List.take_subset j k hb)

/-- A stop-byte-free buffer (the input ran out inside the key, or is
empty): take_till finds no stop byte, Incomplete(Size 1). -/
theorem parse_stopFree {P : List Nat} (h : ∀ b ∈ P, isStop b = false) :
    parse_journal_field P = .incomplete (.size 1) := by
  unfold parse_journal_field
  rw [takeTillStop_none h]

/-- Buffer `K = W` with no newline yet: take_until pends,
Incomplete(Unknown). -/
theorem parse_text_mid {K W : List Nat} (hK : cleanKey K) (hW : 10 ∉ W) :
    parse_journal_field (K ++ 61 :: W) = .incomplete .unknown := by
  unfold parse_journal_field
  rw [takeTillStop_split (cleanKey_stopFree hK) (by rfl) W]
  simp [parse_utf8_value, takeUntilNl_none hW]

/-- A complete text field followed by anything: success, consuming up to
and including the field newline. -/
theorem parse_text_full {K V : List Nat} (hK : cleanKey K) (hV : 10 ∉ V) (R : List Nat) :
    parse_journal_field (K ++ 61 :: (V ++ 10 :: R)) = .ok R ⟨K, .UTF8 V⟩ := by
  unfold parse_journal_field
  rw [takeTillStop_split (cleanKey_stopFree hK) (by rfl) (V ++ 10 :: R)]
  simp [parse_utf8_value, takeUntilNl_split hV R]

/-- With the buffer split at a newline stop byte, the field parser
reduces to `parse_bytes_value` followed by the final tag: the text branch
fails its equals tag, `alt` runs the binary branch, and its error stands
as the last one. -/
theorem parse_field_bin_step {K tail : List Nat} (hK : cleanKey K) :
    parse_journal_field (K ++ 10 :: tail) =
      match parse_bytes_value (10 :: tail) with
      | .ok rem v =>
        match rem with
        | [] => .incomplete (.size 1)
        | c :: rem2 =>
          if c == 10 then .ok rem2 ⟨K, v⟩ else .error .Tag (c :: rem2)
      | .incomplete n => .incomplete n
      | .error k i => .error k i := by
  unfold parse_journal_field
  rw [takeTillStop_split (cleanKey_stopFree hK) (by rfl) tail]
  simp [parse_utf8_value]

/-- `parse_bytes_value` on fewer than 8 length bytes: Error(Eof) from the
complete `le_u64`. -/
theorem parse_bytes_value_short {L : List Nat} (hL : L.length < 8) :
    parse_bytes_value (10 :: L) = .error .Eof L := by
  simp [parse_bytes_value, hL]

/-- `parse_bytes_value` mid-payload: Incomplete(Size (needed - have)). -/
theorem parse_bytes_value_mid {L M : List Nat} (hL : L.length = 8)
    (hM : M.length < le64dec L) :
    parse_bytes_value (10 :: (L ++ M)) =
      .incomplete (.size (le64dec L - M.length)) := by
  have hlen : ¬((L ++ M).length < 8) := by
    rw [List.length_append, hL]; omega
  have htake : (L ++ M).take 8 = L := by rw [← hL]; simp
  have hdrop : (L ++ M).drop 8 = M := by rw [← hL]; simp
  simp only [parse_bytes_value, beq_self_eq_true, if_true, htake, hdrop,
    if_neg hlen, if_pos hM]

/-- `parse_bytes_value` on a complete payload: success. -/
theorem parse_bytes_value_full {L B R : List Nat} (hL : L.length = 8)
    (hdec : le64dec L = B.length) :
    parse_bytes_value (10 :: (L ++ (B ++ R))) = .ok R (.Bytes B) := by
  have hlen : ¬((L ++ (B ++ R)).length < 8) := by
    rw [List.length_append, hL]; omega
  have htake : (L ++ (B ++ R)).take 8 = L := by rw [← hL]; simp
  have hdrop : (L ++ (B ++ R)).drop 8 = B ++ R := by rw [← hL]; simp
  have hlen2 : ¬((B ++ R).length < le64dec L) := by
    rw [List.length_append, hdec]; omega
  have htake2 : (B ++ R).take (le64dec L) = B := by rw [hdec]; simp
  have hdrop2 : (B ++ R).drop (le64dec L) = R := by rw [hdec]; simp
  simp only [parse_bytes_value, beq_self_eq_true, if_true, htake, hdrop,
    if_neg hlen, if_neg hlen2, htake2, hdrop2]

/-- Binary field truncated inside the 8-byte length prefix: the complete
`le_u64` reports Error(Eof), not Incomplete. -/
theorem parse_bin_short {K L : List Nat} (hK : cleanKey K) (hL : L.length < 8) :
    parse_journal_field (K ++ 10 :: L) = .error .Eof L := by
  rw [parse_field_bin_step hK, parse_bytes_value_short hL]

/-- Binary field truncated mid-payload: Incomplete with the exact
remaining demand. -/
theorem parse_bin_mid {K L M : List Nat} (hK : cleanKey K) (hL : L.length = 8)
    (hM : M.length < le64dec L) :
    parse_journal_field (K ++ 10 :: (L ++ M)) =
      .incomplete (.size (le64dec L - M.length)) := by
  rw [parse_field_bin_step hK, parse_bytes_value_mid hL hM]

/-- A complete binary field followed by anything: success, the payload
delivered byte-exactly. -/
theorem parse_bin_full {K L B : List Nat} (hK : cleanKey K) (hL : L.length = 8)
    (hdec : le64dec L = B.length) (R : List Nat) :
    parse_journal_field (K ++ 10 :: (L ++ (B ++ 10 :: R))) = .ok R ⟨K, .Bytes B⟩ := by
  rw [parse_field_bin_step hK, parse_bytes_value_full hL hdec]
  rfl

/-- Binary field with the payload complete but the trailing newline still
missing: the final tag pends, Incomplete(Size 1). -/
theorem parse_bin_nonl {K L B : List Nat} (hK : cleanKey K) (hL : L.length = 8)
    (hdec : le64dec L = B.length) :
    parse_journal_field (K ++ 10 :: (L ++ B)) = .incomplete (.size 1) := by
  have h : L ++ B = L ++ (B ++ []) := by simp
  rw [h, parse_field_bin_step hK, parse_bytes_value_full hL hdec]

/-! ### Reader loop machinery -/

theorem steps_succ_cont {s s2 : LoopState} (h : readStep s = .cont s2) (n : Nat) :
    steps (n + 1) s = steps n s2 := by
  simp [steps, h]

theorem steps_trans {a b : Nat} {s s1 s2 : LoopState}
    (h1 : steps a s = some s1) (h2 : steps b s1 = some s2) :
    steps (a + b) s = some s2 := by
  induction a generalizing s with
  | zero =>
    simp only [steps, Option.some.injEq] at h1
    subst h1
    simpa using h2
  | succ a ih =>
    have he : a + 1 + b = (a + b) + 1 := by omega
    rw [he]
    simp only [steps] at h1 ⊢
    cases hr : readStep s with
    | cont s3 =>
      rw [hr] at h1
      exact ih h1
    | done o => rw [hr] at h1; cases h1
    | fail k i o => rw [hr] at h1; cases h1

theorem readLoop_steps {n : Nat} {s s2 : LoopState} (h : steps n s = some s2) (f : Nat) :
    readLoop (n + f) s = readLoop f s2 := by
  induction n generalizing s with
  | zero =>
    simp only [steps, Option.some.injEq] at h
    subst h
    simp
  | succ n ih =>
    have he : n + 1 + f = (n + f) + 1 := by omega
    rw [he]
    simp only [steps] at h
    simp only [readLoop]
    cases hr : readStep s with
    | cont s3 =>
      rw [hr] at h
      exact ih h
    | done o => rw [hr] at h; cases h
    | fail k i o => rw [hr] at h; cases h

theorem readLoop_done {s : LoopState} {o : List JournalEntry}
    (h : readStep s = .done o) (f : Nat) : readLoop (f + 1) s = .ok o := by
  simp [readLoop, h]

/-- The loop continues with a read of `d` bytes: parse was Incomplete, or
Error(Eof) with the buffer not the lone entry terminator. -/
def ParseCont (buf : List Nat) (d : Nat) : Prop :=
  (parse_journal_field buf = .incomplete .unknown ∧ d = 1) ∨
  parse_journal_field buf = .incomplete (.size d) ∨
  ((∃ i, parse_journal_field buf = .error .Eof i) ∧ buf ≠ [10] ∧ d = 1)

/-- A continuing iteration moves `min d (stream length) = d` bytes from
the stream to the buffer. -/
theorem readStep_cont {s : LoopState} {d : Nat} (h : ParseCont s.buffer d)
    (hd : 1 ≤ d) (hs : d ≤ s.stream.length) :
    readStep s = .cont ⟨s.stream.drop d, s.buffer ++ s.stream.take d, s.cur, s.out⟩ := by
  have hmin : min d s.stream.length = d := Nat.min_eq_left hs
  have hne : s.buffer ++ s.stream.take d ≠ [] := by
    intro he
    have hl := congrArg List.length he
    rw [List.length_append, List.length_take, hmin] at hl
    simp at hl
    omega
  rcases h with ⟨hp, hd1⟩ | hp | ⟨⟨i, hp⟩, hb, hd1⟩
  · subst hd1
    unfold readStep
    rw [hp]
    simp [readNext, hmin, hne]
  · unfold readStep
    rw [hp]
    simp [readNext, hmin, hne]
  · subst hd1
    unfold readStep
    rw [hp]
    simp only [if_neg hb]
    simp [readNext, hmin, hne]

/-- A successful parse of the whole buffer empties it: `remaining` is
empty, so the compaction leaves nothing. -/
theorem readStep_ok_empty {s : LoopState} {f : JournalField}
    (h : parse_journal_field s.buffer = .ok [] f) :
    readStep s = readNext { s with buffer := [], cur := s.cur.put f.key f.value } 1 := by
  unfold readStep
  rw [h]
  have hc : compactBuffer s.buffer [] = [] := by simp [compactBuffer]
  simp only [hc]

theorem readStep_ok_cont {s : LoopState} {f : JournalField} {c : Nat} {S2 : List Nat}
    (h : parse_journal_field s.buffer = .ok [] f) (hS : s.stream = c :: S2) :
    readStep s = .cont ⟨S2, [c], s.cur.put f.key f.value, s.out⟩ := by
  rw [readStep_ok_empty h]
  simp [readNext, hS]

theorem parse_terminator : parse_journal_field [10] = .error .Eof [] := by decide

theorem parse_nil : parse_journal_field [] = .incomplete (.size 1) := by decide

/-- At the entry terminator with more stream to come: the entry is sent,
the state reset, and one more byte read. -/
theorem readStep_term_cont {s : LoopState} {c : Nat} {S2 : List Nat}
    (hb : s.buffer = [10]) (hS : s.stream = c :: S2) :
    readStep s = .cont ⟨S2, [c], [], s.out ++ [s.cur]⟩ := by
  unfold readStep
  rw [hb, parse_terminator]
  simp [readNext, hS]

/-- At the entry terminator with the stream exhausted: the entry is sent,
the read returns nothing, the empty buffer breaks the loop with Ok. -/
theorem readStep_term_done {s : LoopState} (hb : s.buffer = [10]) (hS : s.stream = []) :
    readStep s = .done (s.out ++ [s.cur]) := by
  unfold readStep
  rw [hb, parse_terminator]
  simp [readNext, hS]

/-- Generic byte-moving lemma: while every proper prefix of a region `E`
parses to a continuing result whose demand stays inside `E`, the loop
moves the whole region from the stream into the buffer. -/
theorem advance (E S : List Nat) (cur : JournalEntry) (out : List JournalEntry)
    (hcont : ∀ j, j < E.length →
      ∃ d, ParseCont (E.take j) d ∧ 1 ≤ d ∧ j + d ≤ E.length) :
    ∀ m i, i + m = E.length →
      ∃ n, steps n ⟨E.drop i ++ S, E.take i, cur, out⟩ = some ⟨S, E, cur, out⟩ := by
  intro m
  induction m using Nat.strong_induction_on with
  | _ m ih =>
    intro i hi
    by_cases him : m = 0
    · subst him
      have hie : i = E.length := by omega
      subst hie
      exact ⟨0, by simp [steps]⟩
    · have hilt : i < E.length := by omega
      obtain ⟨d, hpc, hd1, hde⟩ := hcont i hilt
      have hslen : d ≤ (E.drop i ++ S).length := by
        rw [List.length_append, List.length_drop]
        omega
      have hstep := readStep_cont (s := ⟨E.drop i ++ S, E.take i, cur, out⟩) hpc hd1 hslen
      dsimp only at hstep
      have hz : d - (E.drop i).length = 0 := by
        rw [List.length_drop]; omega
      have htk : (E.drop i ++ S).take d = (E.drop i).take d := by
        rw [List.take_append_eq_append_take, hz, List.take_zero, List.append_nil]
      have hdr : (E.drop i ++ S).drop d = E.drop (i + d) ++ S := by
        rw [List.drop_append_eq_append_drop, List.drop_drop, hz, List.drop_zero]
        try rw [Nat.add_comm d i]
      have hbk : E.take i ++ (E.drop i).take d = E.take (i + d) := by
        rw [List.take_add]
      rw [htk, hdr, hbk] at hstep
      obtain ⟨n, hn⟩ := ih (m - d) (by omega) (i + d) (by omega)
      exact ⟨n + 1, by rw [steps_succ_cont hstep]; exact hn⟩

/-! ### Every proper prefix of a well-formed field, classified -/

theorem enc_text_length (k v : List Nat) :
    (encField (.text k v)).length = k.length + v.length + 2 := by
  simp only [encField, List.length_append, List.length_cons, List.length_nil]
  omega

theorem enc_bin_length (k b : List Nat) :
    (encField (.binary k b)).length = k.length + 10 + b.length := by
  simp only [encField, List.length_append, List.length_cons, le64enc_length,
    List.length_nil]
  omega

theorem encText_take_key {k v : List Nat} {j : Nat} (hj : j ≤ k.length) :
    (encField (.text k v)).take j = k.take j := by
  simp only [encField]
  rw [List.take_append_eq_append_take]
  have hz : j - k.length = 0 := by omega
  rw [hz, List.take_zero, List.append_nil]

theorem encText_take_mid {k v : List Nat} {j : Nat} (h1 : k.length < j)
    (h2 : j < k.length + v.length + 2) :
    (encField (.text k v)).take j = k ++ 61 :: v.take (j - k.length - 1) := by
  have ht : j - k.length = (j - k.length - 1) + 1 := by omega
  simp only [encField]
  rw [List.take_append_eq_append_take, List.take_of_length_le (by omega), ht,
    List.take_succ_cons, List.take_append_eq_append_take]
  have hz : j - k.length - 1 - v.length = 0 := by omega
  rw [hz, List.take_zero, List.append_nil]
  simp [Nat.add_sub_cancel]

theorem encBin_take_key {k b : List Nat} {j : Nat} (hj : j ≤ k.length) :
    (encField (.binary k b)).take j = k.take j := by
  simp only [encField]
  rw [List.take_append_eq_append_take]
  have hz : j - k.length = 0 := by omega
  rw [hz, List.take_zero, List.append_nil]

theorem encBin_take_len {k b : List Nat} {j : Nat} (h1 : k.length < j)
    (h2 : j ≤ k.length + 9) :
    (encField (.binary k b)).take j =
      k ++ 10 :: (le64enc b.length).take (j - k.length - 1) := by
  have ht : j - k.length = (j - k.length - 1) + 1 := by omega
  simp only [encField]
  rw [List.take_append_eq_append_take, List.take_of_length_le (by omega), ht,
    List.take_succ_cons, List.take_append_eq_append_take]
  have hz : j - k.length - 1 - (le64enc b.length).length = 0 := by
    rw [le64enc_length]; omega
  rw [hz, List.take_zero, List.append_nil]
  simp [Nat.add_sub_cancel]

theorem encBin_take_pay {k b : List Nat} {j : Nat} (h1 : k.length + 9 ≤ j)
    (h2 : j ≤ k.length + 9 + b.length) :
    (encField (.binary k b)).take j =
      k ++ 10 :: (le64enc b.length ++ b.take (j - k.length - 9)) := by
  have ht : j - k.length = (j - k.length - 1) + 1 := by omega
  simp only [encField]
  rw [List.take_append_eq_append_take, List.take_of_length_le (by omega), ht,
    List.take_succ_cons, List.take_append_eq_append_take,
    List.take_of_length_le (by rw [le64enc_length]; omega)]
  have hm : j - k.length - 1 - (le64enc b.length).length = j - k.length - 9 := by
    rw [le64enc_length]; omega
  rw [hm, List.take_append_eq_append_take]
  have hz : j - k.length - 9 - b.length = 0 := by omega
  rw [hz, List.take_zero, List.append_nil]
  have hfix : j - k.length - 1 + 1 - 9 = j - k.length - 9 := by omega
  rw [hfix]

/-- The one truncation region of a well-formed field where the parser
does NOT answer Incomplete: a binary field cut inside its 8-byte length
prefix (the key and its newline separator are present, fewer than 8
length bytes follow). -/
def lenWindow : FieldSpec → Nat → Prop
  | .text _ _, _ => False
  | .binary k _, j => k.length + 1 ≤ j ∧ j ≤ k.length + 8

instance (F : FieldSpec) (j : Nat) : Decidable (lenWindow F j) := by
  cases F <;> unfold lenWindow <;> exact inferInstance

/-- C4 amended: on every proper prefix of a well-formed field encoding
the parser answers INCOMPLETE — except inside the length-prefix window
of a binary field (key and newline separator present, fewer than 8
length bytes), where it answers ERROR with kind Eof; the reader treats
that Eof as a read-more signal. -/
theorem field_prefix_classification (F : FieldSpec) (hwf : WFfield F) (j : Nat)
    (hj : j < (encField F).length) :
    if lenWindow F j then
      ∃ i, parse_journal_field ((encField F).take j) = .error .Eof i
    else
      ∃ n, parse_journal_field ((encField F).take j) = .incomplete n := by
  cases F with
  | text k v =>
    obtain ⟨hk, hck, hv⟩ := hwf
    rw [if_neg (by simp [lenWindow])]
    rw [enc_text_length] at hj
    by_cases hjk : j ≤ k.length
    · rw [encText_take_key hjk]
      exact ⟨.size 1, parse_stopFree (cleanKey_stopFree (cleanKey_take hck j))⟩
    · rw [encText_take_mid (by omega) hj]
      refine ⟨.unknown, parse_text_mid hck ?_⟩
      exact fun hmem => hv (List.take_subset _ v hmem)
  | binary k b =>
    obtain ⟨hk, hck, hb⟩ := hwf
    rw [enc_bin_length] at hj
    have hdec : le64dec (le64enc b.length) = b.length := le64dec_enc hb
    by_cases hw : lenWindow (.binary k b) j
    · obtain ⟨hw1, hw2⟩ := hw
      rw [if_pos ⟨hw1, hw2⟩, encBin_take_len (by omega) (by omega)]
      refine ⟨(le64enc b.length).take (j - k.length - 1), parse_bin_short hck ?_⟩
      rw [List.length_take, le64enc_length]
      omega
    · rw [if_neg hw]
      simp only [lenWindow, not_and, not_le] at hw
      by_cases hjk : j ≤ k.length
      · rw [encBin_take_key hjk]
        exact ⟨.size 1, parse_stopFree (cleanKey_stopFree (cleanKey_take hck j))⟩
      · have hj9 : k.length + 9 ≤ j := by
          have := hw (by omega)
          omega
        rw [encBin_take_pay hj9 (by omega)]
        by_cases hm : j - k.length - 9 < b.length
        · refine ⟨.size (le64dec (le64enc b.length) - (b.take (j - k.length - 9)).length),
            parse_bin_mid hck (le64enc_length b.length) ?_⟩
          rw [List.length_take, hdec]
          omega
        · have hmb : j - k.length - 9 = b.length := by omega
          rw [hmb, List.take_length]
          exact ⟨.size 1, parse_bin_nonl hck (le64enc_length b.length) hdec⟩

/-- The demands on every proper prefix of a well-formed field stay
within the field: what `advance` needs. -/
theorem fieldPrefixCont (F : FieldSpec) (hwf : WFfield F) :
    ∀ j, j < (encField F).length →
      ∃ d, ParseCont ((encField F).take j) d ∧ 1 ≤ d ∧ j + d ≤ (encField F).length := by
  intro j hj
  cases F with
  | text k v =>
    obtain ⟨hk, hck, hv⟩ := hwf
    rw [enc_text_length] at hj ⊢
    by_cases hjk : j ≤ k.length
    · refine ⟨1, ?_, le_refl 1, by omega⟩
      rw [encText_take_key hjk]
      exact Or.inr (Or.inl (parse_stopFree (cleanKey_stopFree (cleanKey_take hck j))))
    · refine ⟨1, ?_, le_refl 1, by omega⟩
      rw [encText_take_mid (by omega) hj]
      exact Or.inl ⟨parse_text_mid hck (fun hmem => hv (List.take_subset _ v hmem)), rfl⟩
  | binary k b =>
    obtain ⟨hk, hck, hb⟩ := hwf
    rw [enc_bin_length] at hj ⊢
    have hdec : le64dec (le64enc b.length) = b.length := le64dec_enc hb
    have hkpos : 0 < k.length := List.length_pos.2 hk
    by_cases hjk : j ≤ k.length
    · refine ⟨1, ?_, le_refl 1, by omega⟩
      rw [encBin_take_key hjk]
      exact Or.inr (Or.inl (parse_stopFree (cleanKey_stopFree (cleanKey_take hck j))))
    · by_cases hw : j ≤ k.length + 8
      · -- inside the length prefix: Error(Eof), demand READ_STEP
        refine ⟨1, ?_, le_refl 1, by omega⟩
        rw [encBin_take_len (by omega) (by omega)]
        refine Or.inr (Or.inr ⟨⟨(le64enc b.length).take (j - k.length - 1),
          parse_bin_short hck ?_⟩, ?_, rfl⟩)
        · rw [List.length_take, le64enc_length]
          omega
        · intro he
          have hlen := congrArg List.length he
          simp only [List.length_append, List.length_cons, List.length_take,
            le64enc_length, List.length_nil] at hlen
          omega
      · have hj9 : k.length + 9 ≤ j := by omega
        rw [encBin_take_pay hj9 (by omega)]
        by_cases hm : j - k.length - 9 < b.length
        · refine ⟨b.length - (j - k.length - 9), ?_, by omega, by omega⟩
          refine Or.inr (Or.inl ?_)
          have hp := parse_bin_mid (M := b.take (j - k.length - 9)) hck
            (le64enc_length b.length) (by rw [List.length_take, hdec]; omega)
          rw [hp, hdec, List.length_take]
          have : min (j - k.length - 9) b.length = j - k.length - 9 := by omega
          rw [this]
        · have hmb : j - k.length - 9 = b.length := by omega
          refine ⟨1, ?_, le_refl 1, by omega⟩
          rw [hmb, List.take_length]
          exact Or.inr (Or.inl (parse_bin_nonl hck (le64enc_length b.length) hdec))

/-! ### Processing whole fields and entries through the reader loop -/

theorem encField_ne_nil (F : FieldSpec) : encField F ≠ [] := by
  cases F <;> simp [encField]

theorem encEntry_ne_nil (fs : List FieldSpec) : encEntry fs ≠ [] := by
  simp [encEntry]

/-- The parser accepts a complete well-formed field exactly, leaving
nothing. -/
theorem parse_encField (F : FieldSpec) (hwf : WFfield F) :
    parse_journal_field (encField F) = .ok [] ⟨F.key, F.val⟩ := by
  cases F with
  | text k v =>
    obtain ⟨hk, hck, hv⟩ := hwf
    have h := parse_text_full hck hv []
    simpa [encField, FieldSpec.key, FieldSpec.val] using h
  | binary k b =>
    obtain ⟨hk, hck, hb⟩ := hwf
    have h := parse_bin_full hck (le64enc_length b.length) (le64dec_enc hb) []
    simpa [encField, FieldSpec.key, FieldSpec.val] using h

/-- Consuming one field whose encoding sits at the head of the pending
bytes, starting with `i` of its bytes already buffered: the loop ends
with the field inserted and the first byte after the field read into the
buffer. -/
theorem fieldConsume (F : FieldSpec) (hwf : WFfield F) (S : List Nat)
    (cur : JournalEntry) (out : List JournalEntry) (i : Nat)
    (hi : i ≤ (encField F).length) {c : Nat} {S2 : List Nat} (hS : S = c :: S2) :
    ∃ n, steps n ⟨(encField F).drop i ++ S, (encField F).take i, cur, out⟩ =
      some ⟨S2, [c], cur.put F.key F.val, out⟩ := by
  obtain ⟨n1, h1⟩ := advance (encField F) S cur out (fieldPrefixCont F hwf)
    ((encField F).length - i) i (by omega)
  have hdone : readStep ⟨S, encField F, cur, out⟩ =
      .cont ⟨S2, [c], cur.put F.key F.val, out⟩ :=
    readStep_ok_cont (parse_encField F hwf) hS
  have h2 : steps 1 ⟨S, encField F, cur, out⟩ =
      some ⟨S2, [c], cur.put F.key F.val, out⟩ := by
    rw [steps_succ_cont hdone]
    rfl
  exact ⟨n1 + 1, steps_trans h1 h2⟩

theorem encFields_cons (F : FieldSpec) (rest : List FieldSpec) :
    encFields (F :: rest) = encField F ++ encFields rest := by
  simp [encFields]

/-- Consuming a run of fields, one byte of the run already buffered: the
loop inserts them in order and ends with the byte after the run read. -/
theorem fieldsConsume (fs : List FieldSpec) (hwf : ∀ f ∈ fs, WFfield f)
    (T : List Nat) (cur : JournalEntry) (out : List JournalEntry)
    {c : Nat} {T2 : List Nat} (hT : T = c :: T2) :
    ∃ n, steps n ⟨(encFields fs ++ T).drop 1, (encFields fs ++ T).take 1, cur, out⟩ =
      some ⟨T2, [c], entryMap cur fs, out⟩ := by
  induction fs generalizing cur with
  | nil =>
    subst hT
    exact ⟨0, by simp [steps, encFields, entryMap]⟩
  | cons F rest ih =>
    have hE : encField F ≠ [] := encField_ne_nil F
    have hElen : 1 ≤ (encField F).length := by
      cases he : encField F with
      | nil => exact absurd he hE
      | cons a l => simp
    set S := encFields rest ++ T with hSdef
    have hshape : encFields (F :: rest) ++ T = encField F ++ S := by
      rw [encFields_cons, hSdef, List.append_assoc]
    have htk : (encField F ++ S).take 1 = (encField F).take 1 := by
      rw [List.take_append_eq_append_take]
      have hz : 1 - (encField F).length = 0 := by omega
      rw [hz, List.take_zero, List.append_nil]
    have hdr : (encField F ++ S).drop 1 = (encField F).drop 1 ++ S := by
      rw [List.drop_append_eq_append_drop]
      have hz : 1 - (encField F).length = 0 := by omega
      rw [hz, List.drop_zero]
    have hSne : S ≠ [] := by
      rw [hSdef, hT]
      simp
    obtain ⟨c0, S0, hS0⟩ : ∃ c0 S0, S = c0 :: S0 := by
      cases hs : S with
      | nil => exact absurd hs hSne
      | cons a l => exact ⟨a, l, rfl⟩
    obtain ⟨n1, h1⟩ := fieldConsume F (hwf F (by simp)) S cur out 1 hElen hS0
    have hih := ih (fun f hf => hwf f (by simp [hf])) (cur.put F.key F.val)
    obtain ⟨n2, h2⟩ := hih
    -- identify the state reached by h1 with the start state of h2
    have htk2 : (encFields rest ++ T).take 1 = [c0] := by
      rw [← hSdef, hS0]
      simp
    have hdr2 : (encFields rest ++ T).drop 1 = S0 := by
      rw [← hSdef, hS0]
      simp
    rw [htk2, hdr2] at h2
    have hmap : entryMap (cur.put F.key F.val) rest = entryMap cur (F :: rest) := by
      simp [entryMap]
    rw [hmap] at h2
    refine ⟨n1 + n2, ?_⟩
    rw [hshape, htk, hdr]
    exact steps_trans h1 h2

/-- Consuming a whole entry, one byte of it already buffered: the loop
reaches the state where the buffer is exactly the entry terminator. -/
theorem entryConsume (fs : List FieldSpec) (hwf : ∀ f ∈ fs, WFfield f)
    (REST : List Nat) (cur : JournalEntry) (out : List JournalEntry) :
    ∃ n, steps n ⟨(encEntry fs ++ REST).drop 1, (encEntry fs ++ REST).take 1, cur, out⟩ =
      some ⟨REST, [10], entryMap cur fs, out⟩ := by
  have hshape : encEntry fs ++ REST = encFields fs ++ (10 :: REST) := by
    simp [encEntry]
  rw [hshape]
  exact fieldsConsume fs hwf (10 :: REST) cur out rfl

/-- The very first iteration on an empty buffer just reads one byte. -/
theorem readStep_start {W : List Nat} {cur : JournalEntry} {out : List JournalEntry}
    (hW : W ≠ []) :
    readStep ⟨W, [], cur, out⟩ = .cont ⟨W.drop 1, W.take 1, cur, out⟩ := by
  have hlen : 1 ≤ W.length := by
    cases hw : W with
    | nil => exact absurd hw hW
    | cons a l => simp
  have h := readStep_cont (s := ⟨W, [], cur, out⟩) (d := 1)
    (Or.inr (Or.inl parse_nil)) (le_refl 1) hlen
  simpa using h

/-! ### Claim theorems -/

/-- C1: Binary field round-trip. For every key K (one or more bytes,
containing neither the equals sign nor a newline), every byte sequence B
(whose length fits the 8-byte length prefix) and every suffix REST,
`parse_journal_field` on K, newline, the little-endian length of B, B, a
newline and REST succeeds with remaining input exactly REST and the field
(K, Bytes B), B preserved byte-exactly. -/
theorem binary_field_round_trip (K B REST : List Nat) (_hK : K ≠ [])
    (hck : cleanKey K) (hB : B.length < 2 ^ 64) :
    parse_journal_field (K ++ 10 :: (le64enc B.length ++ (B ++ 10 :: REST))) =
      .ok REST ⟨K, .Bytes B⟩ :=
  parse_bin_full hck (le64enc_length B.length) (le64dec_enc hB) REST

theorem binary_field_round_trip_witness :
    ([66] : List Nat) ≠ [] ∧ cleanKey [66] ∧ ([0, 10] : List Nat).length < 2 ^ 64 ∧
    parse_journal_field
        ([66] ++ 10 :: (le64enc ([0, 10] : List Nat).length ++ ([0, 10] ++ 10 :: [65]))) =
      .ok [65] ⟨[66], .Bytes [0, 10]⟩ :=
  ⟨by decide, by decide, by decide,
    binary_field_round_trip [66] [0, 10] [65] (by decide) (by decide) (by decide)⟩

/-- C3: Exact incompleteness demand. A binary field truncated
mid-payload — key, newline separator and the complete 8-byte
little-endian length N present, followed by M < N payload bytes —
parses to INCOMPLETE with exact demand N - M. -/
theorem binary_incomplete_exact_demand (K P : List Nat) (N : Nat) (_hK : K ≠ [])
    (hck : cleanKey K) (hN : N < 2 ^ 64) (hP : P.length < N) :
    parse_journal_field (K ++ 10 :: (le64enc N ++ P)) =
      .incomplete (.size (N - P.length)) := by
  have h := parse_bin_mid (M := P) hck (le64enc_length N)
    (by rw [le64dec_enc hN]; exact hP)
  rw [h, le64dec_enc hN]

theorem binary_incomplete_exact_demand_witness :
    ([65] : List Nat) ≠ [] ∧ cleanKey [65] ∧ (3 : Nat) < 2 ^ 64 ∧
    ([7] : List Nat).length < 3 ∧
    parse_journal_field ([65] ++ 10 :: (le64enc 3 ++ [7])) =
      .incomplete (.size (3 - ([7] : List Nat).length)) :=
  ⟨by decide, by decide, by decide, by decide,
    binary_incomplete_exact_demand [65] [7] 3 (by decide) (by decide) (by decide)
      (by decide)⟩

/-- C2: Entry boundary. An input that is exactly the concatenation of
two well-formed entries makes the reader loop emit exactly their two
field mappings, in input order, and return Ok at EOF. -/
theorem entry_reader_two_entries (fs1 fs2 : List FieldSpec)
    (h1 : ∀ f ∈ fs1, WFfield f) (h2 : ∀ f ∈ fs2, WFfield f)
    (_hn1 : fs1 ≠ []) (_hn2 : fs2 ≠ []) :
    ∃ fuel, read_journal_entries fuel (encEntry fs1 ++ encEntry fs2) =
      .ok [entryMap [] fs1, entryMap [] fs2] := by
  have hWne : encEntry fs1 ++ encEntry fs2 ≠ [] := by
    intro he
    exact encEntry_ne_nil fs1 (List.append_eq_nil.1 he).1
  have st0 : steps 1 ⟨encEntry fs1 ++ encEntry fs2, [], [], []⟩ =
      some ⟨(encEntry fs1 ++ encEntry fs2).drop 1,
            (encEntry fs1 ++ encEntry fs2).take 1, [], []⟩ := by
    rw [steps_succ_cont (readStep_start hWne)]
    rfl
  obtain ⟨n1, e1⟩ := entryConsume fs1 h1 (encEntry fs2) [] []
  have stA := steps_trans st0 e1
  obtain ⟨c, R2, hc⟩ : ∃ c R2, encEntry fs2 = c :: R2 := by
    cases hs : encEntry fs2 with
    | nil => exact absurd hs (encEntry_ne_nil fs2)
    | cons a l => exact ⟨a, l, rfl⟩
  have t1 : readStep ⟨encEntry fs2, [10], entryMap [] fs1, []⟩ =
      .cont ⟨R2, [c], [], [entryMap [] fs1]⟩ := by
    have h := readStep_term_cont (s := ⟨encEntry fs2, [10], entryMap [] fs1, []⟩)
      rfl hc
    simpa using h
  have st1 : steps 1 ⟨encEntry fs2, [10], entryMap [] fs1, []⟩ =
      some ⟨R2, [c], [], [entryMap [] fs1]⟩ := by
    rw [steps_succ_cont t1]
    rfl
  have stB := steps_trans stA st1
  obtain ⟨n2, e2⟩ := entryConsume fs2 h2 [] [] [entryMap [] fs1]
  rw [List.append_nil, hc] at e2
  simp only [List.drop_succ_cons, List.drop_zero, List.take_succ_cons,
    List.take_zero] at e2
  have stC := steps_trans stB e2
  have t2 : readStep ⟨[], [10], entryMap [] fs2, [entryMap [] fs1]⟩ =
      .done [entryMap [] fs1, entryMap [] fs2] := by
    have h := readStep_term_done
      (s := ⟨[], [10], entryMap [] fs2, [entryMap [] fs1]⟩) rfl rfl
    simpa using h
  refine ⟨1 + n1 + 1 + n2 + 1, ?_⟩
  unfold read_journal_entries
  rw [readLoop_steps stC 1, readLoop_done t2 0]

theorem entry_reader_two_entries_witness :
    (∀ f ∈ [FieldSpec.text [65] [49]], WFfield f) ∧
    (∀ f ∈ [FieldSpec.binary [66] [0, 10]], WFfield f) ∧
    ([FieldSpec.text [65] [49]] : List FieldSpec) ≠ [] ∧
    ([FieldSpec.binary [66] [0, 10]] : List FieldSpec) ≠ [] ∧
    ∃ fuel, read_journal_entries fuel
        (encEntry [FieldSpec.text [65] [49]] ++
          encEntry [FieldSpec.binary [66] [0, 10]]) =
      .ok [entryMap [] [FieldSpec.text [65] [49]],
        entryMap [] [FieldSpec.binary [66] [0, 10]]] :=
  ⟨by decide, by decide, by decide, by decide,
    entry_reader_two_entries [FieldSpec.text [65] [49]]
      [FieldSpec.binary [66] [0, 10]] (by decide) (by decide) (by decide) (by decide)⟩

/-- C10: Zero-field entries are emitted. On the stream consisting of the
single entry-terminator newline, the reader sends one entry with the
empty field mapping and returns Ok: an entry with zero fields reaches the
sink. -/
theorem empty_entry_emitted :
    ∃ fuel, read_journal_entries fuel [10] = .ok [([] : JournalEntry)] :=
  ⟨3, by decide⟩

/-- Spinning helper: a state that steps to itself never finishes. -/
theorem readLoop_spin {s : LoopState} (h : readStep s = .cont s) :
    ∀ fuel, ∃ t, readLoop fuel s = .fuelOut t := by
  intro fuel
  induction fuel with
  | zero => exact ⟨s, rfl⟩
  | succ n ih => simpa [readLoop, h] using ih

/-- Spinning helper: a run that reaches a self-stepping state never
finishes. -/
theorem readLoop_prefix_spin {n : Nat} {s s0 : LoopState} (hn : steps n s = some s0)
    (hspin : readStep s0 = .cont s0) :
    ∀ fuel, ∃ t, readLoop fuel s = .fuelOut t := by
  induction n generalizing s with
  | zero =>
    simp only [steps, Option.some.injEq] at hn
    subst hn
    exact readLoop_spin hspin
  | succ n ih =>
    intro fuel
    simp only [steps] at hn
    cases hr : readStep s with
    | cont s2 =>
      rw [hr] at hn
      cases fuel with
      | zero => exact ⟨s, rfl⟩
      | succ f =>
        simp only [readLoop, hr]
        exact ih hn f
    | done o => rw [hr] at hn; cases hn
    | fail k i o => rw [hr] at hn; cases hn

/-- C5 (code bug): on the stream `MESSAGE=hel` — scenario S1 truncated
mid-value, EOF following — the reader loop never terminates: after the
eleven bytes are buffered, every iteration re-parses the same buffer to
Incomplete(Unknown), demands one byte, reads zero bytes at EOF, and the
nonempty buffer prevents the break. The claim (and spec scenario S5)
says the reader returns Ok with no entry emitted. -/
theorem truncated_stream_never_terminates :
    ∀ fuel, ∃ t,
      read_journal_entries fuel [77, 69, 83, 83, 65, 71, 69, 61, 104, 101, 108] =
        .fuelOut t := by
  have hsteps : steps 11
      ⟨[77, 69, 83, 83, 65, 71, 69, 61, 104, 101, 108], [], [], []⟩ =
      some ⟨[], [77, 69, 83, 83, 65, 71, 69, 61, 104, 101, 108], [], []⟩ := by decide
  have hspin : readStep ⟨[], [77, 69, 83, 83, 65, 71, 69, 61, 104, 101, 108], [], []⟩ =
      .cont ⟨[], [77, 69, 83, 83, 65, 71, 69, 61, 104, 101, 108], [], []⟩ := by decide
  exact readLoop_prefix_spin hsteps hspin

/-- C6 (code bug): on the buffer `A=1\nX`, on which the parser succeeds
with remaining `X`, the compaction of lines 135-137
(`input.truncate(remaining.len()); input.extend(&remaining)`) leaves the
buffer `AX` — the first byte of the OLD buffer followed by the
remainder — not `X` as the claim (and spec step OK) states. The field is
still inserted. -/
theorem compaction_keeps_prefix_at_failing_input :
    parse_journal_field [65, 61, 49, 10, 88] = .ok [88] ⟨[65], .UTF8 [49]⟩ ∧
    compactBuffer [65, 61, 49, 10, 88] [88] = [65, 88] ∧
    readStep ⟨[], [65, 61, 49, 10, 88], [], []⟩ =
      .cont ⟨[], [65, 88], [([65], .UTF8 [49])], []⟩ ∧
    ([65, 88] : List Nat) ≠ [88] :=
  ⟨by decide, by decide, by decide, by decide⟩

/-- Whether a parse result is an ERROR. -/
def PResult.isErr {α : Type} : PResult α → Bool
  | .error _ _ => true
  | _ => false

/-- C7 counterexample: the input `=\n` begins with the equals sign (the
key would be empty), yet `parse_journal_field` SUCCEEDS with the empty
key and empty text value instead of returning an ERROR: `take_till`
takes zero key bytes without complaint. -/
theorem empty_key_parses_ok_counterexample :
    parse_journal_field [61, 10] = .ok [] ⟨[], .UTF8 []⟩ ∧
    (parse_journal_field [61, 10]).isErr = false :=
  ⟨by decide, by decide⟩

/-- C7 amended: on every input whose first byte is the equals sign, the
parser never errors: when a newline follows it succeeds with the empty
key and the text between the equals sign and the first newline
(remaining input = everything after that newline); with no newline yet
it returns Incomplete(Unknown). -/
theorem empty_key_success_amended (v rest : List Nat) (hv : 10 ∉ v) :
    parse_journal_field (61 :: (v ++ 10 :: rest)) = .ok rest ⟨[], .UTF8 v⟩ ∧
    parse_journal_field (61 :: v) = .incomplete .unknown := by
  constructor
  · have h := parse_text_full (K := [])
      (fun b hb => absurd hb (List.not_mem_nil b)) hv rest
    simpa using h
  · have h := parse_text_mid (K := [])
      (fun b hb => absurd hb (List.not_mem_nil b)) hv
    simpa using h

theorem empty_key_success_amended_witness :
    (10 : Nat) ∉ [97] ∧
    parse_journal_field (61 :: ([97] ++ 10 :: [98])) = .ok [98] ⟨[], .UTF8 [97]⟩ ∧
    parse_journal_field (61 :: [97]) = .incomplete .unknown :=
  ⟨by decide, (empty_key_success_amended [97] [98] (by decide)).1,
    (empty_key_success_amended [97] [98] (by decide)).2⟩

/-- C4 counterexample: `K\n\x00` is a proper prefix of the well-formed
binary field `K\n LE64(0) \n` (truncated inside the 8-byte length
prefix), and `parse_journal_field` returns an ERROR (kind Eof) on it,
not INCOMPLETE: the source uses `number::complete::le_u64`, whose short
read is Error(Eof). -/
theorem field_prefix_error_counterexample :
    WFfield (.binary [75] []) ∧
    3 < (encField (.binary [75] [])).length ∧
    (encField (.binary [75] [])).take 3 = [75, 10, 0] ∧
    parse_journal_field [75, 10, 0] = .error .Eof [0] :=
  ⟨by decide, by decide, by decide, by decide⟩

theorem field_prefix_classification_witness :
    ∃ i, parse_journal_field ((encField (.binary [75] [])).take 2) = .error .Eof i := by
  have h := field_prefix_classification (.binary [75] []) (by decide) 2 (by decide)
  rwa [if_pos (by decide)] at h

/-! ### Row projection claims -/

/-- Removing one key leaves the lookup of any other key unchanged. -/
theorem lookupE_removeE_ne (e : JournalEntry) {k1 k2 : List Nat} (h : k1 ≠ k2) :
    lookupE (removeE e k1) k2 = lookupE e k2 := by
  induction e with
  | nil => rfl
  | cons p rest ih =>
    obtain ⟨pk, pv⟩ := p
    by_cases hp : pk = k1
    · subst hp
      have hne : pk ≠ k2 := h
      simp only [removeE, List.filter] at ih ⊢
      simp only [bne_self_eq_false]
      rw [ih]
      simp [lookupE, hne]
    · have hb : (pk != k1) = true := by simp [hp]
      simp only [removeE, List.filter, hb] at ih ⊢
      by_cases hq : pk = k2
      · subst hq
        simp [lookupE]
      · simp only [lookupE, if_neg hq]
        exact ih

/-- The six distinguished keys, in the order the projection checks
them. -/
def sixKeys : List (List Nat) := [kTRANSPORT, kMACHINE, kBOOT, kHOST, kTS, kCURSOR]

/-- The realtime timestamp, when present, parses to an in-range instant
(the claim says "with a well-formed timestamp when present"). -/
def tsOkIfPresent (e : JournalEntry) : Bool :=
  match lookupE e kTS with
  | some v =>
    match parse_realtime_timerstamp v with
    | .ok _ => true
    | _ => false
  | none => true

/-- C8: Row projection missing-field error. When exactly one of the six
distinguished keys is absent and the other five are present (the
timestamp well-formed when present), the projection fails with
MissingField naming exactly the absent key. -/
theorem projection_missing_field (e : JournalEntry) (k : List Nat)
    (hk : k ∈ sixKeys) (habs : lookupE e k = none)
    (hpres : ∀ k2 ∈ sixKeys, k2 ≠ k → (lookupE e k2).isSome = true)
    (hts : tsOkIfPresent e = true) :
    tryFromEntry e = .err (.MissingField k) := by
  simp only [sixKeys, List.mem_cons, List.mem_singleton, List.not_mem_nil,
    or_false] at hk
  have hT := fun h => Option.isSome_iff_exists.1 (hpres kTRANSPORT (by simp [sixKeys]) h)
  have hM := fun h => Option.isSome_iff_exists.1 (hpres kMACHINE (by simp [sixKeys]) h)
  have hB := fun h => Option.isSome_iff_exists.1 (hpres kBOOT (by simp [sixKeys]) h)
  have hH := fun h => Option.isSome_iff_exists.1 (hpres kHOST (by simp [sixKeys]) h)
  have hS := fun h => Option.isSome_iff_exists.1 (hpres kTS (by simp [sixKeys]) h)
  rcases hk with rfl | rfl | rfl | rfl | rfl | rfl
  · unfold tryFromEntry
    rw [habs]
  · obtain ⟨vT, hvT⟩ := hT (by decide)
    unfold tryFromEntry
    rw [hvT]
    dsimp only
    rw [lookupE_removeE_ne e (by decide), habs]
  · obtain ⟨vT, hvT⟩ := hT (by decide)
    obtain ⟨vM, hvM⟩ := hM (by decide)
    unfold tryFromEntry
    rw [hvT]
    dsimp only
    rw [lookupE_removeE_ne e (by decide), hvM]
    dsimp only
    rw [lookupE_removeE_ne _ (by decide), lookupE_removeE_ne e (by decide), habs]
  · obtain ⟨vT, hvT⟩ := hT (by decide)
    obtain ⟨vM, hvM⟩ := hM (by decide)
    obtain ⟨vB, hvB⟩ := hB (by decide)
    unfold tryFromEntry
    rw [hvT]
    dsimp only
    rw [lookupE_removeE_ne e (by decide), hvM]
    dsimp only
    rw [lookupE_removeE_ne _ (by decide), lookupE_removeE_ne e (by decide), hvB]
    dsimp only
    rw [lookupE_removeE_ne _ (by decide), lookupE_removeE_ne _ (by decide),
      lookupE_removeE_ne e (by decide), habs]
  · obtain ⟨vT, hvT⟩ := hT (by decide)
    obtain ⟨vM, hvM⟩ := hM (by decide)
    obtain ⟨vB, hvB⟩ := hB (by decide)
    obtain ⟨vH, hvH⟩ := hH (by decide)
    unfold tryFromEntry
    rw [hvT]
    dsimp only
    rw [lookupE_removeE_ne e (by decide), hvM]
    dsimp only
    rw [lookupE_removeE_ne _ (by decide), lookupE_removeE_ne e (by decide), hvB]
    dsimp only
    rw [lookupE_removeE_ne _ (by decide), lookupE_removeE_ne _ (by decide),
      lookupE_removeE_ne e (by decide), hvH]
    dsimp only
    rw [lookupE_removeE_ne _ (by decide), lookupE_removeE_ne _ (by decide),
      lookupE_removeE_ne _ (by decide), lookupE_removeE_ne e (by decide), habs]
  · obtain ⟨vT, hvT⟩ := hT (by decide)
    obtain ⟨vM, hvM⟩ := hM (by decide)
    obtain ⟨vB, hvB⟩ := hB (by decide)
    obtain ⟨vH, hvH⟩ := hH (by decide)
    obtain ⟨vS, hvS⟩ := hS (by decide)
    have hparse : ∃ nn, parse_realtime_timerstamp vS = .ok nn := by
      unfold tsOkIfPresent at hts
      rw [hvS] at hts
      dsimp only at hts
      cases hp : parse_realtime_timerstamp vS with
      | ok nn => exact ⟨nn, rfl⟩
      | parseErr => rw [hp] at hts; cases hts
      | panics => rw [hp] at hts; cases hts
    obtain ⟨nn, hnn⟩ := hparse
    unfold tryFromEntry
    rw [hvT]
    dsimp only
    rw [lookupE_removeE_ne e (by decide), hvM]
    dsimp only
    rw [lookupE_removeE_ne _ (by decide), lookupE_removeE_ne e (by decide), hvB]
    dsimp only
    rw [lookupE_removeE_ne _ (by decide), lookupE_removeE_ne _ (by decide),
      lookupE_removeE_ne e (by decide), hvH]
    dsimp only
    rw [lookupE_removeE_ne _ (by decide), lookupE_removeE_ne _ (by decide),
      lookupE_removeE_ne _ (by decide), lookupE_removeE_ne e (by decide), hvS]
    dsimp only
    rw [hnn]
    dsimp only
    rw [lookupE_removeE_ne _ (by decide), lookupE_removeE_ne _ (by decide),
      lookupE_removeE_ne _ (by decide), lookupE_removeE_ne _ (by decide),
      lookupE_removeE_ne e (by decide), habs]

set_option maxRecDepth 20000 in
theorem projection_missing_field_witness :
    lookupE [(kTRANSPORT, .UTF8 [115]), (kMACHINE, .UTF8 [109]),
        (kHOST, .UTF8 [104]), (kTS, .UTF8 [49, 55]), (kCURSOR, .UTF8 [99])] kBOOT =
      none ∧
    tryFromEntry [(kTRANSPORT, .UTF8 [115]), (kMACHINE, .UTF8 [109]),
        (kHOST, .UTF8 [104]), (kTS, .UTF8 [49, 55]), (kCURSOR, .UTF8 [99])] =
      .err (.MissingField kBOOT) := by
  refine ⟨by decide, ?_⟩
  exact projection_missing_field _ kBOOT (by decide) (by decide)
    (by decide) (by decide)

set_option maxRecDepth 20000 in
/-- C9 counterexample: the entry with all six required fields whose
realtime timestamp is the decimal string `1000000000000000000`
(10^18 microseconds, year ~33658) parses as a decimal integer, yet the
projection PANICS — `OffsetDateTime::from_unix_timestamp_nanos(...)
.unwrap()` rejects the out-of-range instant — instead of returning a row
carrying that timestamp. -/
theorem timestamp_out_of_range_panics :
    parseI128 (valueToBytes (.UTF8
        [49, 48, 48, 48, 48, 48, 48, 48, 48, 48, 48, 48, 48, 48, 48, 48, 48, 48, 48])) =
      some 1000000000000000000 ∧
    tryFromEntry [(kTRANSPORT, .UTF8 [115]), (kMACHINE, .UTF8 [109]),
        (kBOOT, .UTF8 [98]), (kHOST, .UTF8 [104]),
        (kTS, .UTF8
          [49, 48, 48, 48, 48, 48, 48, 48, 48, 48, 48, 48, 48, 48, 48, 48, 48, 48, 48]),
        (kCURSOR, .UTF8 [99])] = .panics :=
  ⟨by decide, by decide⟩

/-- C9 amended: for an entry with all six required fields and timestamp
value v — writing m for the parsed decimal microseconds — the projection
returns the row whose timestamp is exactly m microseconds (m * 1000
nanoseconds) after the Unix epoch when the instant is representable;
returns Unspecified when v does not parse as a decimal integer; and
panics when m parses but the instant is out of range. -/
theorem timestamp_projection_amended (e : JournalEntry) (v : JournalFieldValue)
    (hT : (lookupE e kTRANSPORT).isSome = true)
    (hM : (lookupE e kMACHINE).isSome = true)
    (hB : (lookupE e kBOOT).isSome = true)
    (hH : (lookupE e kHOST).isSome = true)
    (hS : lookupE e kTS = some v)
    (hC : (lookupE e kCURSOR).isSome = true) :
    (∀ m : Int, parseI128 (valueToBytes v) = some m → inOdtRange (m * 1000) = true →
      ∃ r, tryFromEntry e = .ok r ∧ r.timestamp = m * 1000) ∧
    (parseI128 (valueToBytes v) = none → tryFromEntry e = .err .Unspecified) ∧
    (∀ m : Int, parseI128 (valueToBytes v) = some m → inOdtRange (m * 1000) = false →
      tryFromEntry e = .panics) := by
  obtain ⟨vT, hvT⟩ := Option.isSome_iff_exists.1 hT
  obtain ⟨vM, hvM⟩ := Option.isSome_iff_exists.1 hM
  obtain ⟨vB, hvB⟩ := Option.isSome_iff_exists.1 hB
  obtain ⟨vH, hvH⟩ := Option.isSome_iff_exists.1 hH
  obtain ⟨vC, hvC⟩ := Option.isSome_iff_exists.1 hC
  refine ⟨?_, ?_, ?_⟩
  · intro m hm hr
    have hts : parse_realtime_timerstamp v = .ok (m * 1000) := by
      unfold parse_realtime_timerstamp
      rw [hm]
      dsimp only
      rw [if_pos hr]
    unfold tryFromEntry
    rw [hvT]
    dsimp only
    rw [lookupE_removeE_ne e (by decide), hvM]
    dsimp only
    rw [lookupE_removeE_ne _ (by decide), lookupE_removeE_ne e (by decide), hvB]
    dsimp only
    rw [lookupE_removeE_ne _ (by decide), lookupE_removeE_ne _ (by decide),
      lookupE_removeE_ne e (by decide), hvH]
    dsimp only
    rw [lookupE_removeE_ne _ (by decide), lookupE_removeE_ne _ (by decide),
      lookupE_removeE_ne _ (by decide), lookupE_removeE_ne e (by decide), hS]
    dsimp only
    rw [hts]
    dsimp only
    rw [lookupE_removeE_ne _ (by decide), lookupE_removeE_ne _ (by decide),
      lookupE_removeE_ne _ (by decide), lookupE_removeE_ne _ (by decide),
      lookupE_removeE_ne e (by decide), hvC]
    dsimp only
    exact ⟨_, rfl, rfl⟩
  · intro hm
    have hts : parse_realtime_timerstamp v = .parseErr := by
      unfold parse_realtime_timerstamp
      rw [hm]
    unfold tryFromEntry
    rw [hvT]
    dsimp only
    rw [lookupE_removeE_ne e (by decide), hvM]
    dsimp only
    rw [lookupE_removeE_ne _ (by decide), lookupE_removeE_ne e (by decide), hvB]
    dsimp only
    rw [lookupE_removeE_ne _ (by decide), lookupE_removeE_ne _ (by decide),
      lookupE_removeE_ne e (by decide), hvH]
    dsimp only
    rw [lookupE_removeE_ne _ (by decide), lookupE_removeE_ne _ (by decide),
      lookupE_removeE_ne _ (by decide), lookupE_removeE_ne e (by decide), hS]
    dsimp only
    rw [hts]
  · intro m hm hr
    have hts : parse_realtime_timerstamp v = .panics := by
      unfold parse_realtime_timerstamp
      rw [hm]
      dsimp only
      rw [if_neg (by rw [hr]; exact Bool.false_ne_true)]
    unfold tryFromEntry
    rw [hvT]
    dsimp only
    rw [lookupE_removeE_ne e (by decide), hvM]
    dsimp only
    rw [lookupE_removeE_ne _ (by decide), lookupE_removeE_ne e (by decide), hvB]
    dsimp only
    rw [lookupE_removeE_ne _ (by decide), lookupE_removeE_ne _ (by decide),
      lookupE_removeE_ne e (by decide), hvH]
    dsimp only
    rw [lookupE_removeE_ne _ (by decide), lookupE_removeE_ne _ (by decide),
      lookupE_removeE_ne _ (by decide), lookupE_removeE_ne e (by decide), hS]
    dsimp only
    rw [hts]

set_option maxRecDepth 20000 in
/-- Witness for C9 at the spec instance: `__REALTIME_TIMESTAMP =
"1700000000000000"` projects to a row whose timestamp is exactly the
instant 2023-11-14T22:13:20Z (expressed in epoch nanoseconds through the
civil-date conversion). -/
theorem timestamp_projection_amended_witness :
    (daysFromCivil 2023 11 14 * 86400 + (22 * 3600 + 13 * 60 + 20)) * 1000000000 =
      1700000000000000 * 1000 ∧
    parseI128 (valueToBytes (.UTF8
        [49, 55, 48, 48, 48, 48, 48, 48, 48, 48, 48, 48, 48, 48, 48, 48])) =
      some 1700000000000000 ∧
    ∃ r, tryFromEntry [(kTRANSPORT, .UTF8 [115]), (kMACHINE, .UTF8 [109]),
        (kBOOT, .UTF8 [98]), (kHOST, .UTF8 [104]),
        (kTS, .UTF8 [49, 55, 48, 48, 48, 48, 48, 48, 48, 48, 48, 48, 48, 48, 48, 48]),
        (kCURSOR, .UTF8 [99])] = .ok r ∧
      r.timestamp = 1700000000000000 * 1000 :=
  ⟨by decide, by decide,
    (timestamp_projection_amended
        [(kTRANSPORT, .UTF8 [115]), (kMACHINE, .UTF8 [109]),
          (kBOOT, .UTF8 [98]), (kHOST, .UTF8 [104]),
          (kTS, .UTF8 [49, 55, 48, 48, 48, 48, 48, 48, 48, 48, 48, 48, 48, 48, 48, 48]),
          (kCURSOR, .UTF8 [99])]
        (.UTF8 [49, 55, 48, 48, 48, 48, 48, 48, 48, 48, 48, 48, 48, 48, 48, 48])
        (by decide) (by decide) (by decide) (by decide)
        (by decide) (by decide)).1 1700000000000000 (by decide) (by decide)⟩
